import Mathlib

/-!
Verification of the boolean-expression front end (lexer + recursive-descent
parser) of `parser_lexer.py`.

The lexer is embedded as a scanner over `List Char` that reproduces the
behaviour of Python's `re.finditer` on the alternation
`COMMENT | FN | BOOL | ID | OP | COMMA | WHITESPACE | MISMATCH`:
at each position the alternatives are tried in order and each matches
greedily.  The parser is embedded as a family of mutually recursive
functions over the remaining token list (the head of the list is the
parser's current lookahead token); recursion is made total with a fuel
parameter, and dereferencing a missing token (Python's `None` current
token) is modelled by the explicit outcome `crash`.
-/

namespace ParserLexer

/-- Token kinds, exactly the named groups of the lexer's regular
expression plus the `EOF` sentinel. -/
inductive TokType where
  | COMMENT
  | FN
  | BOOL
  | ID
  | OP
  | COMMA
  | WHITESPACE
  | MISMATCH
  | EOF
deriving DecidableEq, Repr

/-- `Token(type, value, position)` from the source. -/
structure Token where
  type : TokType
  value : String
  position : Nat
deriving DecidableEq, Repr

/-- `[a-zA-Z]`, the first character of an identifier. -/
def isLetter (c : Char) : Bool :=
  ('a' ≤ c && c ≤ 'z') || ('A' ≤ c && c ≤ 'Z')

/-- `[a-zA-Z0-9-_]`, the continuation characters of an identifier. -/
def isIdChar (c : Char) : Bool :=
  isLetter c || ('0' ≤ c && c ≤ '9') || c = '-' || c = '_'

/-- `[ \t\n\r]`, whitespace characters. -/
def isWS (c : Char) : Bool :=
  c = ' ' || c = '\t' || c = '\n' || c = '\r'

/-- `[&|~()]`, the single-character operators. -/
def isOpChar (c : Char) : Bool :=
  c = '&' || c = '|' || c = '~' || c = '(' || c = ')'

/-- One step of the regex alternation at the current position: given the
current character `c` and the remaining characters `cs`, try the pattern
groups in their priority order (COMMENT, FN, BOOL, ID, OP, COMMA,
WHITESPACE, MISMATCH) and return the winning kind together with the
matched characters and the unconsumed rest.  Python's alternation picks
the first group that matches at the position (not the longest match), so
`fn` wins over the identifier pattern even when identifier characters
follow. -/
def matchAt (c : Char) (cs : List Char) : TokType × List Char × List Char :=
  if c = '#' then
    (.COMMENT, c :: cs.takeWhile (fun x => x ≠ '\n'), cs.dropWhile (fun x => x ≠ '\n'))
  else
    match c, cs with
    | 'f', 'n' :: rest => (.FN, ['f', 'n'], rest)
    | 't', 'r' :: 'u' :: 'e' :: rest => (.BOOL, ['t', 'r', 'u', 'e'], rest)
    | 'f', 'a' :: 'l' :: 's' :: 'e' :: rest => (.BOOL, ['f', 'a', 'l', 's', 'e'], rest)
    | _, _ =>
      if isLetter c then
        (.ID, c :: cs.takeWhile isIdChar, cs.dropWhile isIdChar)
      else if isOpChar c then
        (.OP, [c], cs)
      else if c = ',' then
        (.COMMA, [c], cs)
      else if isWS c then
        (.WHITESPACE, c :: cs.takeWhile isWS, cs.dropWhile isWS)
      else
        (.MISMATCH, [c], cs)

/-- Characters at which some non-`MISMATCH` pattern group can match: `#`
starts a comment, a letter starts `fn`, `true`, `false` or an identifier,
and the remaining groups are single-character classes.  A character
outside these classes is matched by the catch-all `MISMATCH` group. -/
def startsCategory (c : Char) : Bool :=
  c = '#' || isLetter c || isOpChar c || c = ',' || isWS c

/-- `p` is a prefix of `l` (used to state which identifier-shaped runs
the keyword and boolean-literal patterns capture). -/
def startsWithChars : List Char → List Char → Bool
  | [], _ => true
  | _ :: _, [] => false
  | p :: ps, c :: cs => p = c && startsWithChars ps cs

/-- A lexical error: the position of and the text matched by the
`MISMATCH` group (`RuntimeError` in the source). -/
structure LexErr where
  position : Nat
  value : String
deriving DecidableEq, Repr

/-- `f'Unexpected character at position {position}: {value}'`. -/
def lexErrorMessage (e : LexErr) : String :=
  "Unexpected character at position " ++ toString e.position ++ ": " ++ e.value

/-- The scanning loop of `Lexer.tokenize`: repeatedly match at the current
position, discard `WHITESPACE` and `COMMENT` matches, abort on `MISMATCH`,
and collect every other token.  `pos` is the absolute position of the
current character in the original text.  The loop is made structurally
recursive with a `fuel` argument; since every match consumes at least one
character, `fuel = l.length` always suffices and the fuel-exhaustion
branch (the `.error ⟨pos, ""⟩` below, recognisable by its empty value,
which a real mismatch can never produce) is unreachable from
`tokenizeChars`. -/
def lexLoop : Nat → List Char → Nat → Except LexErr (List Token)
  | _, [], _ => .ok []
  | 0, _ :: _, pos => .error ⟨pos, ""⟩
  | fuel + 1, c :: cs, pos =>
    match matchAt c cs with
    | (kind, matched, rest) =>
      match kind with
      | .WHITESPACE => lexLoop fuel rest (pos + matched.length)
      | .COMMENT => lexLoop fuel rest (pos + matched.length)
      | .MISMATCH => .error ⟨pos, String.mk matched⟩
      | k =>
        match lexLoop fuel rest (pos + matched.length) with
        | .error e => .error e
        | .ok ts => .ok (⟨k, String.mk matched, pos⟩ :: ts)

/-- `Lexer.tokenize` on a character list: run the scanning loop and append
the single `EOF` sentinel, positioned at the text's length. -/
def tokenizeChars (l : List Char) : Except LexErr (List Token) :=
  match lexLoop l.length l 0 with
  | .error e => .error e
  | .ok ts => .ok (ts ++ [⟨.EOF, "", l.length⟩])

/-- `Lexer.tokenize` on a string. -/
def tokenize (text : String) : Except LexErr (List Token) :=
  tokenizeChars text.toList

/-- Expression nodes, one variant per dictionary shape the parser builds:
`{"tag": "bool", "value": v}`, `{"tag": "id", "name": n}`,
`{"tag": "~", "rand1": e}`, `{"tag": op, "rand1": l, "rand2": r}` with
`op` the operator text `"&"` or `"|"`, and
`{"tag": "app", "name": n, "args": es}`. -/
inductive Expr where
  | boolLit (value : String)
  | id (name : String)
  | not (rand1 : Expr)
  | binop (tag : String) (rand1 rand2 : Expr)
  | app (name : String) (args : List Expr)

/-- A top-level item: a definition dictionary
`{"tag": "def", "name": n, "formals": fs, "body": e}` or a bare
expression. -/
inductive Item where
  | defn (name : String) (formals : List String) (body : Expr)
  | expr (e : Expr)

/-- The parser's result: the list built by `parse_program`. -/
def Program := List Item

/-- Parse outcomes other than success: `syntaxError` models the
`SyntaxError` raised by `Parser.error` (carrying the expected-token
description, the actual token's value and its position); `crash` models
dereferencing the `None` that `Lexer.peek` yields past the end of the
token list (an `AttributeError` in the source, not a caught error);
`outOfFuel` is an artifact of making the recursion structural. -/
inductive POut where
  | syntaxError (expected got : String) (position : Nat)
  | crash
  | outOfFuel
deriving DecidableEq, Repr

/-- The description string `Parser.consume` passes to `Parser.error` for
each expected token type. -/
def typeName : TokType → String
  | .COMMENT => "COMMENT"
  | .FN => "FN"
  | .BOOL => "BOOL"
  | .ID => "ID"
  | .OP => "OP"
  | .COMMA => "COMMA"
  | .WHITESPACE => "WHITESPACE"
  | .MISMATCH => "MISMATCH"
  | .EOF => "EOF"

/-- The message of the `SyntaxError` raised by `Parser.error`:
`f"error: expecting '{expected}' but got '{token.value}'\n{text}\n{' ' * token.position}^"`. -/
def syntaxErrorMessage (text expected got : String) (position : Nat) : String :=
  "error: expecting '" ++ expected ++ "' but got '" ++ got ++ "'\n" ++ text ++ "\n"
    ++ String.mk (List.replicate position ' ') ++ "^"

/-- `Parser.consume(expected_type)`: the head of the remaining token list
is the parser's current lookahead token.  On a type match the token is
returned and the lookahead advances; otherwise `Parser.error` raises a
syntax error.  An empty remaining list means the current token is `None`,
so reading its type crashes. -/
def pconsume (expected : TokType) : List Token → Except POut (Token × List Token)
  | [] => .error .crash
  | t :: ts =>
    if t.type = expected then .ok (t, ts)
    else .error (.syntaxError (typeName expected) t.value t.position)

mutual

/-- `Parser.parse_primary_expression`. -/
def parse_primary_expression : Nat → List Token → Except POut (Expr × List Token)
  | 0, _ => .error .outOfFuel
  | fuel + 1, ts =>
    match ts with
    | [] => .error .crash
    | t :: _ =>
      if t.type = .BOOL then
        match pconsume .BOOL ts with
        | .error e => .error e
        | .ok (tok, ts1) => .ok (.boolLit tok.value, ts1)
      else if t.type = .ID then
        match pconsume .ID ts with
        | .error e => .error e
        | .ok (idTok, ts1) =>
          match ts1 with
          | [] => .error .crash
          | t2 :: _ =>
            if t2.value = "(" then parse_function_application fuel idTok.value ts1
            else .ok (.id idTok.value, ts1)
      else if t.value = "(" then
        match pconsume .OP ts with
        | .error e => .error e
        | .ok (_, ts1) =>
          match parse_expression fuel ts1 with
          | .error e => .error e
          | .ok (e, ts2) =>
            match pconsume .OP ts2 with
            | .error er => .error er
            | .ok (_, ts3) => .ok (e, ts3)
      else .error (.syntaxError "primary expression" t.value t.position)

/-- `Parser.parse_function_application`, called with the already-consumed
callee name; consumes `(`, the comma-separated arguments, and `)`. -/
def parse_function_application : Nat → String → List Token → Except POut (Expr × List Token)
  | 0, _, _ => .error .outOfFuel
  | fuel + 1, name, ts =>
    match pconsume .OP ts with
    | .error e => .error e
    | .ok (_, ts1) =>
      match ts1 with
      | [] => .error .crash
      | t :: _ =>
        if t.value ≠ ")" then
          match parse_expression fuel ts1 with
          | .error e => .error e
          | .ok (a, ts2) =>
            match argsLoop fuel [a] ts2 with
            | .error e => .error e
            | .ok (args, ts3) =>
              match pconsume .OP ts3 with
              | .error e => .error e
              | .ok (_, ts4) => .ok (.app name args, ts4)
        else
          match pconsume .OP ts1 with
          | .error e => .error e
          | .ok (_, ts2) => .ok (.app name [], ts2)

/-- The `while self.current_token.type == 'COMMA'` loop of
`parse_function_application`, accumulating arguments in order. -/
def argsLoop : Nat → List Expr → List Token → Except POut (List Expr × List Token)
  | 0, _, _ => .error .outOfFuel
  | fuel + 1, acc, ts =>
    match ts with
    | [] => .error .crash
    | t :: _ =>
      if t.type = .COMMA then
        match pconsume .COMMA ts with
        | .error e => .error e
        | .ok (_, ts1) =>
          match parse_expression fuel ts1 with
          | .error e => .error e
          | .ok (a, ts2) => argsLoop fuel (acc ++ [a]) ts2
      else .ok (acc, ts)

/-- `Parser.parse_prefix_expression`. -/
def parse_prefix_expression : Nat → List Token → Except POut (Expr × List Token)
  | 0, _ => .error .outOfFuel
  | fuel + 1, ts =>
    match ts with
    | [] => .error .crash
    | t :: _ =>
      if t.value = "~" then
        match pconsume .OP ts with
        | .error e => .error e
        | .ok (_, ts1) =>
          match parse_prefix_expression fuel ts1 with
          | .error e => .error e
          | .ok (operand, ts2) => .ok (.not operand, ts2)
      else parse_primary_expression fuel ts

/-- `Parser.parse_expression`: one prefix expression, then the
left-associative binary-operator loop. -/
def parse_expression : Nat → List Token → Except POut (Expr × List Token)
  | 0, _ => .error .outOfFuel
  | fuel + 1, ts =>
    match parse_prefix_expression fuel ts with
    | .error e => .error e
    | .ok (left, ts1) => binLoop fuel left ts1

/-- The `while self.current_token.value in ['&', '|']` loop of
`parse_expression`: fold further operands onto `left`, left-to-right. -/
def binLoop : Nat → Expr → List Token → Except POut (Expr × List Token)
  | 0, _, _ => .error .outOfFuel
  | fuel + 1, left, ts =>
    match ts with
    | [] => .error .crash
    | t :: _ =>
      if t.value = "&" ∨ t.value = "|" then
        match pconsume .OP ts with
        | .error e => .error e
        | .ok (op, ts1) =>
          match parse_prefix_expression fuel ts1 with
          | .error e => .error e
          | .ok (right, ts2) => binLoop fuel (.binop op.value left right) ts2
      else .ok (left, ts)

end

mutual

/-- `Parser.parse_definition`: `fn`, the name, `(`, the optional
comma-separated formals, `)`, then the body expression. -/
def parse_definition : Nat → List Token → Except POut (Item × List Token)
  | 0, _ => .error .outOfFuel
  | fuel + 1, ts =>
    match pconsume .FN ts with
    | .error e => .error e
    | .ok (_, ts1) =>
      match pconsume .ID ts1 with
      | .error e => .error e
      | .ok (nameTok, ts2) =>
        match pconsume .OP ts2 with
        | .error e => .error e
        | .ok (_, ts3) =>
          match ts3 with
          | [] => .error .crash
          | t :: _ =>
            if t.type = .ID then
              match pconsume .ID ts3 with
              | .error e => .error e
              | .ok (f0, ts4) =>
                match formalsLoop fuel [f0.value] ts4 with
                | .error e => .error e
                | .ok (formals, ts5) =>
                  match pconsume .OP ts5 with
                  | .error e => .error e
                  | .ok (_, ts6) =>
                    match parse_expression fuel ts6 with
                    | .error e => .error e
                    | .ok (body, ts7) =>
                      .ok (.defn nameTok.value formals body, ts7)
            else
              match pconsume .OP ts3 with
              | .error e => .error e
              | .ok (_, ts4) =>
                match parse_expression fuel ts4 with
                | .error e => .error e
                | .ok (body, ts5) => .ok (.defn nameTok.value [] body, ts5)

/-- The `while self.current_token.type == 'COMMA'` loop of
`parse_definition`, accumulating formal-parameter names in order. -/
def formalsLoop : Nat → List String → List Token → Except POut (List String × List Token)
  | 0, _, _ => .error .outOfFuel
  | fuel + 1, acc, ts =>
    match ts with
    | [] => .error .crash
    | t :: _ =>
      if t.type = .COMMA then
        match pconsume .COMMA ts with
        | .error e => .error e
        | .ok (_, ts1) =>
          match pconsume .ID ts1 with
          | .error e => .error e
          | .ok (f, ts2) => formalsLoop fuel (acc ++ [f.value]) ts2
      else .ok (acc, ts)

end

/-- The `while self.current_token.type != 'EOF'` loop of
`Parser.parse_program`, accumulating the top-level items in order. -/
def programLoop : Nat → List Item → List Token → Except POut (Program × List Token)
  | 0, _, _ => .error .outOfFuel
  | fuel + 1, acc, ts =>
    match ts with
    | [] => .error .crash
    | t :: _ =>
      if t.type = .EOF then .ok (acc, ts)
      else if t.type = .FN then
        match parse_definition fuel ts with
        | .error e => .error e
        | .ok (d, ts1) => programLoop fuel (acc ++ [d]) ts1
      else
        match parse_expression fuel ts with
        | .error e => .error e
        | .ok (e, ts1) => programLoop fuel (acc ++ [.expr e]) ts1

/-- `Parser.parse_program` on a token list. -/
def parse_program (fuel : Nat) (ts : List Token) : Except POut Program :=
  match programLoop fuel [] ts with
  | .error e => .error e
  | .ok (p, _) => .ok p

/-- Standard fuel budget: each unit of parser recursion depth either
consumes a token within a bounded number of calls or terminates, so a
linear budget in the token count is ample. -/
def stdFuel (ts : List Token) : Nat :=
  8 * ts.length + 16

/-- The result of running the whole pipeline of `main` on a source text:
lex, then parse, with both error kinds rendered to the single message
surfaced to the caller.  `crash` and `outOfFuel` are kept apart: the
former is the unhandled `AttributeError` the source would raise on a
`None` token, the latter is an artifact of the fuel encoding. -/
inductive RunResult where
  | ok (p : Program)
  | err (message : String)
  | crash
  | outOfFuel

/-- `main`: tokenize the text; on a lexical error surface the
`RuntimeError` message, otherwise parse and on a syntax error surface the
`SyntaxError` message built by `Parser.error`. -/
def runPipeline (text : String) : RunResult :=
  match tokenize text with
  | .error e => .err (lexErrorMessage e)
  | .ok ts =>
    match parse_program (stdFuel ts) ts with
    | .ok p => .ok p
    | .error (.syntaxError expected got position) =>
      .err (syntaxErrorMessage text expected got position)
    | .error .crash => .crash
    | .error .outOfFuel => .outOfFuel

/-- Parse a source text into a `Program`, keeping the structured outcome. -/
def parseText (text : String) : Except (LexErr ⊕ POut) Program :=
  match tokenize text with
  | .error e => .error (.inl e)
  | .ok ts =>
    match parse_program (stdFuel ts) ts with
    | .error e => .error (.inr e)
    | .ok p => .ok p

/-- The token list still contains an `EOF` sentinel somewhere ahead. -/
def hasEOF (ts : List Token) : Prop :=
  ∃ t ∈ ts, t.type = .EOF

/-- A parser step outcome that never dereferences a missing token, and
whose remaining tokens still contain the `EOF` sentinel on success. -/
def Safe {α : Type} (r : Except POut (α × List Token)) : Prop :=
  r ≠ .error .crash ∧ ∀ x rem, r = .ok (x, rem) → hasEOF rem

/-- The matched characters and the rest reassemble to the input, and the
match is never empty. -/
theorem matchAt_split (c : Char) (cs : List Char) :
    (matchAt c cs).2.1 ++ (matchAt c cs).2.2 = c :: cs ∧ (matchAt c cs).2.1 ≠ [] := by
  unfold matchAt
  split
  · exact ⟨by simp [List.takeWhile_append_dropWhile], by simp⟩
  · split
    · exact ⟨rfl, by simp⟩
    · exact ⟨rfl, by simp⟩
    · exact ⟨rfl, by simp⟩
    · split
      · exact ⟨by simp [List.takeWhile_append_dropWhile], by simp⟩
      · split
        · exact ⟨rfl, by simp⟩
        · split
          · exact ⟨rfl, by simp⟩
          · split
            · exact ⟨by simp [List.takeWhile_append_dropWhile], by simp⟩
            · exact ⟨rfl, by simp⟩

theorem matchAt_rest_lt (c : Char) (cs : List Char) :
    (matchAt c cs).2.2.length < (c :: cs).length := by
  obtain ⟨hsplit, hne⟩ := matchAt_split c cs
  have h := congrArg List.length hsplit
  simp only [List.length_append, List.length_cons] at h
  have : 0 < (matchAt c cs).2.1.length := List.length_pos.mpr hne
  simp only [List.length_cons]
  omega

/-- No pattern group of the lexer produces the `EOF` kind; the sentinel
is appended separately by `tokenizeChars`. -/
theorem matchAt_ne_eof (c : Char) (cs : List Char) : (matchAt c cs).1 ≠ .EOF := by
  unfold matchAt
  split
  · simp
  · split
    · simp
    · simp
    · simp
    · split
      · simp
      · split
        · simp
        · split
          · simp
          · split
            · simp
            · simp

/-- When the winning group is `MISMATCH`, the match is the single current
character, nothing is consumed beyond it, and that character starts no
other category. -/
theorem matchAt_mismatch (c : Char) (cs : List Char) (m r : List Char)
    (h : matchAt c cs = (.MISMATCH, m, r)) :
    m = [c] ∧ r = cs ∧ startsCategory c = false := by
  unfold matchAt at h
  split at h
  · simp at h
  · split at h
    · simp at h
    · simp at h
    · simp at h
    · split at h
      · simp at h
      · split at h
        · simp at h
        · split at h
          · simp at h
          · split at h
            · simp at h
            · simp only [Prod.mk.injEq] at h
              refine ⟨h.2.1.symm, h.2.2.symm, ?_⟩
              simp only [startsCategory]
              simp_all

/-- The scanning loop never emits an `EOF`-kind token. -/
theorem lexLoop_no_eof : ∀ (fuel : Nat) (l : List Char) (pos : Nat) (ts : List Token),
    lexLoop fuel l pos = .ok ts → ∀ t ∈ ts, t.type ≠ .EOF := by
  intro fuel
  induction fuel with
  | zero =>
    intro l pos ts h t ht
    cases l with
    | nil =>
      simp only [lexLoop] at h
      cases h
      simp at ht
    | cons c cs =>
      simp only [lexLoop] at h
      simp at h
  | succ fuel ih =>
    intro l pos ts h t ht
    cases l with
    | nil =>
      simp only [lexLoop] at h
      cases h
      simp at ht
    | cons c cs =>
      simp only [lexLoop] at h
      split at h
      · exact ih _ _ _ h t ht
      · exact ih _ _ _ h t ht
      · simp at h
      · split at h
        · simp at h
        · rename_i ts' heq2
          simp only [Except.ok.injEq] at h
          subst h
          rcases List.mem_cons.mp ht with h1 | h1
          · subst h1
            simpa using matchAt_ne_eof c cs
          · exact ih _ _ _ heq2 t h1

/-- Any error of the scanning loop (run with sufficient fuel) points at a
character of the input that starts no token category, and reports that
character as the matched text. -/
theorem lexLoop_error : ∀ (fuel : Nat) (l : List Char) (pos : Nat) (e : LexErr),
    l.length ≤ fuel → lexLoop fuel l pos = .error e →
    ∃ (k : Nat) (c : Char), l[k]? = some c ∧ startsCategory c = false ∧
      e.position = pos + k ∧ e.value = String.mk [c] := by
  intro fuel
  induction fuel with
  | zero =>
    intro l pos e hfuel h
    cases l with
    | nil => simp only [lexLoop] at h; simp at h
    | cons c cs => simp at hfuel
  | succ fuel ih =>
    intro l pos e hfuel h
    cases l with
    | nil => simp only [lexLoop] at h; simp at h
    | cons c cs =>
      obtain ⟨happ, hne⟩ := matchAt_split c cs
      have hrest : (matchAt c cs).2.2.length ≤ fuel := by
        have := matchAt_rest_lt c cs
        simp only [List.length_cons] at this hfuel
        omega
      have hshift : ∀ (k' : Nat),
          (c :: cs)[(matchAt c cs).2.1.length + k']? = (matchAt c cs).2.2[k']? := by
        intro k'
        rw [← happ]
        rw [List.getElem?_append_right (by omega)]
        congr 1
        omega
      simp only [lexLoop] at h
      split at h
      · obtain ⟨k', ch, hget, hcat, hpos, hval⟩ := ih _ _ _ hrest h
        exact ⟨(matchAt c cs).2.1.length + k', ch, by rw [hshift k']; exact hget, hcat,
          by rw [hpos, Nat.add_assoc], hval⟩
      · obtain ⟨k', ch, hget, hcat, hpos, hval⟩ := ih _ _ _ hrest h
        exact ⟨(matchAt c cs).2.1.length + k', ch, by rw [hshift k']; exact hget, hcat,
          by rw [hpos, Nat.add_assoc], hval⟩
      · rename_i heq
        obtain ⟨hm, hr, hcat⟩ :=
          matchAt_mismatch c cs (matchAt c cs).2.1 (matchAt c cs).2.2 (by rw [← heq])
        simp only [Except.error.injEq] at h
        subst h
        exact ⟨0, c, by simp, hcat, by simp, by simp [hm]⟩
      · split at h
        · rename_i e' heq2
          simp only [Except.error.injEq] at h
          subst h
          obtain ⟨k', ch, hget, hcat, hpos, hval⟩ := ih _ _ _ hrest heq2
          exact ⟨(matchAt c cs).2.1.length + k', ch, by rw [hshift k']; exact hget, hcat,
            by rw [hpos, Nat.add_assoc], hval⟩
        · simp at h

/-- A successful tokenization has the shape `body ++ [EOF sentinel]` with
an `EOF`-free body. -/
theorem tokenizeChars_ok (l : List Char) (ts : List Token)
    (h : tokenizeChars l = .ok ts) :
    ∃ body, ts = body ++ [⟨.EOF, "", l.length⟩] ∧ ∀ t ∈ body, t.type ≠ .EOF := by
  unfold tokenizeChars at h
  split at h
  · simp at h
  · rename_i body heq
    simp only [Except.ok.injEq] at h
    subst h
    exact ⟨body, rfl, lexLoop_no_eof _ _ _ _ heq⟩

/-- The token sequence of any successful tokenization contains the `EOF`
sentinel. -/
theorem tokenizeChars_hasEOF (l : List Char) (ts : List Token)
    (h : tokenizeChars l = .ok ts) : hasEOF ts := by
  obtain ⟨body, rfl, -⟩ := tokenizeChars_ok l ts h
  exact ⟨⟨.EOF, "", l.length⟩, by simp, rfl⟩

theorem hasEOF_nil : ¬ hasEOF ([] : List Token) := by
  rintro ⟨t, ht, -⟩
  simp at ht

theorem safe_error {α : Type} {e : POut} (h : e ≠ .crash) :
    Safe (α := α) (.error e) :=
  ⟨by simpa using h, by intro x rem hh; cases hh⟩

theorem safe_ok {α : Type} {x : α} {rem : List Token} (h : hasEOF rem) :
    Safe (.ok (x, rem)) :=
  ⟨by simp, by intro y r hh; cases hh; exact h⟩

/-- `Parser.consume` with any expected type other than `EOF` neither
dereferences a missing token nor consumes the `EOF` sentinel. -/
theorem pconsume_safe (expected : TokType) (hexp : expected ≠ .EOF)
    (ts : List Token) (h : hasEOF ts) : Safe (pconsume expected ts) := by
  rcases ts with _ | ⟨t, ts'⟩
  · exact absurd h hasEOF_nil
  · simp only [pconsume]
    split
    · rename_i htype
      refine safe_ok ?_
      obtain ⟨u, hu, hut⟩ := h
      rcases List.mem_cons.mp hu with rfl | hu'
      · exact absurd (htype.symm.trans hut) hexp
      · exact ⟨u, hu', hut⟩
    · exact safe_error (by simp)

/-- None of the parsing functions ever dereferences a missing token while
an `EOF` sentinel is still ahead, and none of them consumes the sentinel:
on success the remaining tokens still contain it. -/
theorem parser_safe (fuel : Nat) :
    (∀ ts, hasEOF ts → Safe (parse_primary_expression fuel ts)) ∧
    (∀ name ts, hasEOF ts → Safe (parse_function_application fuel name ts)) ∧
    (∀ acc ts, hasEOF ts → Safe (argsLoop fuel acc ts)) ∧
    (∀ ts, hasEOF ts → Safe (parse_prefix_expression fuel ts)) ∧
    (∀ ts, hasEOF ts → Safe (parse_expression fuel ts)) ∧
    (∀ left ts, hasEOF ts → Safe (binLoop fuel left ts)) ∧
    (∀ ts, hasEOF ts → Safe (parse_definition fuel ts)) ∧
    (∀ acc ts, hasEOF ts → Safe (formalsLoop fuel acc ts)) ∧
    (∀ acc ts, hasEOF ts → Safe (programLoop fuel acc ts)) := by
  induction fuel with
  | zero =>
    exact ⟨fun ts h => safe_error (by decide), fun n ts h => safe_error (by decide),
      fun a ts h => safe_error (by decide), fun ts h => safe_error (by decide),
      fun ts h => safe_error (by decide), fun l ts h => safe_error (by decide),
      fun ts h => safe_error (by decide), fun a ts h => safe_error (by decide),
      fun a ts h => safe_error (by decide)⟩
  | succ fuel ih =>
    obtain ⟨ihPrim, ihApp, ihArgs, ihPre, ihExpr, ihBin, ihDef, ihFor, ihProg⟩ := ih
    refine ⟨?_, ?_, ?_, ?_, ?_, ?_, ?_, ?_, ?_⟩
    · intro ts h
      rcases ts with _ | ⟨t, ts'⟩
      · exact absurd h hasEOF_nil
      simp only [parse_primary_expression]
      split
      · have hps := pconsume_safe .BOOL (by decide) _ h
        split
        · rename_i e heq
          exact safe_error (by rintro rfl; exact hps.1 heq)
        · rename_i tok ts1 heq
          exact safe_ok (hps.2 _ _ heq)
      · split
        · have hps := pconsume_safe .ID (by decide) _ h
          split
          · rename_i e heq
            exact safe_error (by rintro rfl; exact hps.1 heq)
          · rename_i idTok ts1 heq
            have h1 : hasEOF ts1 := hps.2 _ _ heq
            split
            · exact absurd h1 hasEOF_nil
            · split
              · exact ihApp _ _ h1
              · exact safe_ok h1
        · split
          · have hps := pconsume_safe .OP (by decide) _ h
            split
            · rename_i e heq
              exact safe_error (by rintro rfl; exact hps.1 heq)
            · rename_i tok ts1 heq
              have hpe := ihExpr _ (hps.2 _ _ heq)
              split
              · rename_i e heq2
                exact safe_error (by rintro rfl; exact hpe.1 heq2)
              · rename_i e2 ts2 heq2
                have hps2 := pconsume_safe .OP (by decide) _ (hpe.2 _ _ heq2)
                split
                · rename_i er heq3
                  exact safe_error (by rintro rfl; exact hps2.1 heq3)
                · rename_i tok2 ts3 heq3
                  exact safe_ok (hps2.2 _ _ heq3)
          · exact safe_error (by simp)
    · intro name ts h
      simp only [parse_function_application]
      have hps := pconsume_safe .OP (by decide) _ h
      split
      · rename_i e heq
        exact safe_error (by rintro rfl; exact hps.1 heq)
      · rename_i tok ts1 heq
        have h1 : hasEOF ts1 := hps.2 _ _ heq
        split
        · exact absurd h1 hasEOF_nil
        · split
          · have hpe := ihExpr _ h1
            split
            · rename_i e heq2
              exact safe_error (by rintro rfl; exact hpe.1 heq2)
            · rename_i a ts2 heq2
              have hal := ihArgs [a] _ (hpe.2 _ _ heq2)
              split
              · rename_i e heq3
                exact safe_error (by rintro rfl; exact hal.1 heq3)
              · rename_i args ts3 heq3
                have hps2 := pconsume_safe .OP (by decide) _ (hal.2 _ _ heq3)
                split
                · rename_i e heq4
                  exact safe_error (by rintro rfl; exact hps2.1 heq4)
                · rename_i tok2 ts4 heq4
                  exact safe_ok (hps2.2 _ _ heq4)
          · have hps2 := pconsume_safe .OP (by decide) _ h1
            split
            · rename_i e heq2
              exact safe_error (by rintro rfl; exact hps2.1 heq2)
            · rename_i tok2 ts2 heq2
              exact safe_ok (hps2.2 _ _ heq2)
    · intro acc ts h
      rcases ts with _ | ⟨t, ts'⟩
      · exact absurd h hasEOF_nil
      simp only [argsLoop]
      split
      · have hps := pconsume_safe .COMMA (by decide) _ h
        split
        · rename_i e heq
          exact safe_error (by rintro rfl; exact hps.1 heq)
        · rename_i tok ts1 heq
          have hpe := ihExpr _ (hps.2 _ _ heq)
          split
          · rename_i e heq2
            exact safe_error (by rintro rfl; exact hpe.1 heq2)
          · rename_i a ts2 heq2
            exact ihArgs _ _ (hpe.2 _ _ heq2)
      · exact safe_ok h
    · intro ts h
      rcases ts with _ | ⟨t, ts'⟩
      · exact absurd h hasEOF_nil
      simp only [parse_prefix_expression]
      split
      · have hps := pconsume_safe .OP (by decide) _ h
        split
        · rename_i e heq
          exact safe_error (by rintro rfl; exact hps.1 heq)
        · rename_i tok ts1 heq
          have hpp := ihPre _ (hps.2 _ _ heq)
          split
          · rename_i e heq2
            exact safe_error (by rintro rfl; exact hpp.1 heq2)
          · rename_i op ts2 heq2
            exact safe_ok (hpp.2 _ _ heq2)
      · exact ihPrim _ h
    · intro ts h
      simp only [parse_expression]
      have hpp := ihPre ts h
      split
      · rename_i e heq
        exact safe_error (by rintro rfl; exact hpp.1 heq)
      · rename_i left ts1 heq
        exact ihBin _ _ (hpp.2 _ _ heq)
    · intro left ts h
      rcases ts with _ | ⟨t, ts'⟩
      · exact absurd h hasEOF_nil
      simp only [binLoop]
      split
      · have hps := pconsume_safe .OP (by decide) _ h
        split
        · rename_i e heq
          exact safe_error (by rintro rfl; exact hps.1 heq)
        · rename_i op ts1 heq
          have hpp := ihPre _ (hps.2 _ _ heq)
          split
          · rename_i e heq2
            exact safe_error (by rintro rfl; exact hpp.1 heq2)
          · rename_i right ts2 heq2
            exact ihBin _ _ (hpp.2 _ _ heq2)
      · exact safe_ok h
    · intro ts h
      simp only [parse_definition]
      have h0 := pconsume_safe .FN (by decide) _ h
      split
      · rename_i e heq
        exact safe_error (by rintro rfl; exact h0.1 heq)
      · rename_i tok0 ts1 heq0
        have hp1 := pconsume_safe .ID (by decide) _ (h0.2 _ _ heq0)
        split
        · rename_i e heq
          exact safe_error (by rintro rfl; exact hp1.1 heq)
        · rename_i nameTok ts2 heq1
          have hp2 := pconsume_safe .OP (by decide) _ (hp1.2 _ _ heq1)
          split
          · rename_i e heq
            exact safe_error (by rintro rfl; exact hp2.1 heq)
          · rename_i tok2 ts3 heq2
            have h3 := hp2.2 _ _ heq2
            split
            · exact absurd h3 hasEOF_nil
            · split
              · have hp3 := pconsume_safe .ID (by decide) _ h3
                split
                · rename_i e heq
                  exact safe_error (by rintro rfl; exact hp3.1 heq)
                · rename_i f0 ts4 heq3
                  have hfl := ihFor [f0.value] _ (hp3.2 _ _ heq3)
                  split
                  · rename_i e heq
                    exact safe_error (by rintro rfl; exact hfl.1 heq)
                  · rename_i formals ts5 heq4
                    have hp4 := pconsume_safe .OP (by decide) _ (hfl.2 _ _ heq4)
                    split
                    · rename_i e heq
                      exact safe_error (by rintro rfl; exact hp4.1 heq)
                    · rename_i tok4 ts6 heq5
                      have hpe := ihExpr _ (hp4.2 _ _ heq5)
                      split
                      · rename_i e heq
                        exact safe_error (by rintro rfl; exact hpe.1 heq)
                      · rename_i body ts7 heq6
                        exact safe_ok (hpe.2 _ _ heq6)
              · have hp3 := pconsume_safe .OP (by decide) _ h3
                split
                · rename_i e heq
                  exact safe_error (by rintro rfl; exact hp3.1 heq)
                · rename_i tok3 ts4 heq3
                  have hpe := ihExpr _ (hp3.2 _ _ heq3)
                  split
                  · rename_i e heq
                    exact safe_error (by rintro rfl; exact hpe.1 heq)
                  · rename_i body ts5 heq4
                    exact safe_ok (hpe.2 _ _ heq4)
    · intro acc ts h
      rcases ts with _ | ⟨t, ts'⟩
      · exact absurd h hasEOF_nil
      simp only [formalsLoop]
      split
      · have hps := pconsume_safe .COMMA (by decide) _ h
        split
        · rename_i e heq
          exact safe_error (by rintro rfl; exact hps.1 heq)
        · rename_i tok ts1 heq
          have hp2 := pconsume_safe .ID (by decide) _ (hps.2 _ _ heq)
          split
          · rename_i e heq2
            exact safe_error (by rintro rfl; exact hp2.1 heq2)
          · rename_i f ts2 heq2
            exact ihFor _ _ (hp2.2 _ _ heq2)
      · exact safe_ok h
    · intro acc ts h
      rcases ts with _ | ⟨t, ts'⟩
      · exact absurd h hasEOF_nil
      simp only [programLoop]
      split
      · exact safe_ok h
      · split
        · have hd := ihDef _ h
          split
          · rename_i e heq
            exact safe_error (by rintro rfl; exact hd.1 heq)
          · rename_i d ts1 heq
            exact ihProg _ _ (hd.2 _ _ heq)
        · have hpe := ihExpr _ h
          split
          · rename_i e heq
            exact safe_error (by rintro rfl; exact hpe.1 heq)
          · rename_i e1 ts1 heq
            exact ihProg _ _ (hpe.2 _ _ heq)

/-- `parse_program` never dereferences a missing token when the token
list contains an `EOF` sentinel, for any fuel. -/
theorem parse_program_safe (fuel : Nat) (ts : List Token) (h : hasEOF ts) :
    parse_program fuel ts ≠ .error .crash := by
  have hp := (parser_safe fuel).2.2.2.2.2.2.2.2 [] ts h
  intro hcontra
  unfold parse_program at hcontra
  split at hcontra
  · rename_i e heq
    simp only [Except.error.injEq] at hcontra
    exact hp.1 (by rw [heq, hcontra])
  · simp at hcontra

/-- C1: `&` and `|` are parsed at a single shared precedence level with a
left-to-right fold: `"a & b | c"` yields `Or(And(Id a, Id b), Id c)` and
`"a | b & c"` yields `And(Or(Id a, Id b), Id c)`; `&` never binds tighter
than `|`. -/
theorem C1_shared_precedence_left_assoc :
    parseText "a & b | c" =
      .ok [.expr (.binop "|" (.binop "&" (.id "a") (.id "b")) (.id "c"))] ∧
    parseText "a | b & c" =
      .ok [.expr (.binop "&" (.binop "|" (.id "a") (.id "b")) (.id "c"))] :=
  ⟨rfl, rfl⟩

/-- C2: unary `~` binds tighter than the binary operators and stacks:
`"~a & b"` yields `And(Not(Id a), Id b)` and `"~~a"` yields
`Not(Not(Id a))`. -/
theorem C2_tilde_binds_tighter_and_stacks :
    parseText "~a & b" = .ok [.expr (.binop "&" (.not (.id "a")) (.id "b"))] ∧
    parseText "~~a" = .ok [.expr (.not (.not (.id "a")))] :=
  ⟨rfl, rfl⟩

/-- C3: where the grammar requires a specific parenthesis the parser only
checks that the lookahead token's kind is `OP`, never its value, so a
different operator is accepted instead of failing: `"(a~"` parses
successfully with `~` standing for the closing `)`, and
`"fn f| x| true"` parses as a definition with `|` standing for both
parentheses of the parameter list. -/
theorem C3_paren_places_accept_any_operator :
    parseText "(a~" = .ok [.expr (.id "a")] ∧
    parseText "fn f| x| true" = .ok [.defn "f" ["x"] (.boolLit "true")] :=
  ⟨rfl, rfl⟩

/-- C4 is refuted: the identifier-shaped run `fnx` does not lex to a
single `Identifier` token; the `fn` pattern wins at position 0 and the
run is split into a keyword token followed by an identifier token. -/
theorem C4_counterexample_fnx_splits :
    tokenize "fnx" = .ok [⟨.FN, "fn", 0⟩, ⟨.ID, "x", 2⟩, ⟨.EOF, "", 3⟩] ∧
    tokenize "fnx" ≠ .ok [⟨.ID, "fnx", 0⟩, ⟨.EOF, "", 3⟩] :=
  ⟨rfl, by
    intro h
    rw [show tokenize "fnx" = .ok [⟨.FN, "fn", 0⟩, ⟨.ID, "x", 2⟩, ⟨.EOF, "", 3⟩]
      from rfl] at h
    simp at h⟩

/-- C4 (amended): the keyword and boolean-literal patterns win at the
start of a run regardless of what follows, so runs beginning with `fn`,
`true` or `false` are split (`fnx` lexes as `FN` then `ID`, `truex` as
`BOOL` then `ID`); a letter-initiated run that does not begin with one of
those three words is matched by the identifier pattern as a single
maximal run of identifier characters. -/
theorem C4_keyword_priority_then_max_munch :
    (∀ (c : Char) (cs : List Char), isLetter c = true →
      startsWithChars ['f', 'n'] (c :: cs) = false →
      startsWithChars ['t', 'r', 'u', 'e'] (c :: cs) = false →
      startsWithChars ['f', 'a', 'l', 's', 'e'] (c :: cs) = false →
      matchAt c cs = (.ID, c :: cs.takeWhile isIdChar, cs.dropWhile isIdChar)) ∧
    tokenize "fnx" = .ok [⟨.FN, "fn", 0⟩, ⟨.ID, "x", 2⟩, ⟨.EOF, "", 3⟩] ∧
    tokenize "truex" = .ok [⟨.BOOL, "true", 0⟩, ⟨.ID, "x", 4⟩, ⟨.EOF, "", 5⟩] ∧
    tokenize "fn" = .ok [⟨.FN, "fn", 0⟩, ⟨.EOF, "", 2⟩] ∧
    tokenize "abc-d_9" = .ok [⟨.ID, "abc-d_9", 0⟩, ⟨.EOF, "", 7⟩] := by
  refine ⟨?_, rfl, rfl, rfl, rfl⟩
  intro c cs hlet h1 h2 h3
  have hc : ¬ c = '#' := by
    rintro rfl
    exact absurd hlet (by decide)
  unfold matchAt
  rw [if_neg hc]
  split
  · simp [startsWithChars] at h1
  · simp [startsWithChars] at h2
  · simp [startsWithChars] at h3
  · rw [if_pos hlet]

/-- C4 witness: the identifier rule of the amended statement applied at
the concrete run `go`. -/
theorem C4_keyword_priority_then_max_munch_witness :
    matchAt 'g' ['o'] = (.ID, ['g', 'o'], []) :=
  C4_keyword_priority_then_max_munch.1 'g' ['o']
    (by decide) (by decide) (by decide) (by decide)

/-- C5 is refuted: the lexical error surfaced for `"a $ b"` is a message
that contains no caret character at all, hence no marker line and no copy
of the source text. -/
theorem C5_counterexample_lex_error_no_caret :
    runPipeline "a $ b" = .err "Unexpected character at position 2: $" ∧
    ('^' ∉ ("Unexpected character at position 2: $").toList) :=
  ⟨rfl, by decide⟩

/-- C5 (amended), kind-linked: when lexing fails with error `e`, the
pipeline surfaces exactly the bare lexical message for `e` (only the
problem statement with the offending position and character, no source
text, no marker line); when lexing succeeds and parsing fails with a
syntax error, the pipeline surfaces exactly the message carrying the
problem statement, the original source text and the marker line of
position-many fill characters followed by a caret; and every surfaced
message arises from one of these two cases. -/
theorem C5_error_message_shapes (text : String) :
    (∀ e : LexErr, tokenize text = .error e →
      runPipeline text = .err ("Unexpected character at position "
        ++ toString e.position ++ ": " ++ e.value)) ∧
    (∀ (ts : List Token) (expected got : String) (pos : Nat),
      tokenize text = .ok ts →
      parse_program (stdFuel ts) ts = .error (.syntaxError expected got pos) →
      runPipeline text = .err ("error: expecting '" ++ expected
        ++ "' but got '" ++ got ++ "'\n" ++ text ++ "\n"
        ++ String.mk (List.replicate pos ' ') ++ "^")) ∧
    (∀ m : String, runPipeline text = .err m →
      (∃ e : LexErr, tokenize text = .error e) ∨
      (∃ (ts : List Token) (expected got : String) (pos : Nat),
        tokenize text = .ok ts ∧
        parse_program (stdFuel ts) ts = .error (.syntaxError expected got pos))) := by
  refine ⟨?_, ?_, ?_⟩
  · intro e he
    simp [runPipeline, he, lexErrorMessage]
  · intro ts expected got pos hok hperr
    simp [runPipeline, hok, hperr, syntaxErrorMessage]
  · intro m hm
    unfold runPipeline at hm
    split at hm
    · rename_i e heq
      exact .inl ⟨e, heq⟩
    · rename_i ts heq
      split at hm
      · simp at hm
      · rename_i expected got pos heq2
        exact .inr ⟨ts, expected, got, pos, heq, heq2⟩
      · simp at hm
      · simp at hm

/-- C5 witness: the lexical case instantiated at `"a $ b"` and the
syntax case instantiated at `"a &"`. -/
theorem C5_error_message_shapes_witness :
    runPipeline "a $ b" = .err ("Unexpected character at position "
      ++ toString (2 : Nat) ++ ": " ++ "$") ∧
    runPipeline "a &" = .err ("error: expecting '" ++ "primary expression"
      ++ "' but got '" ++ "" ++ "'\n" ++ "a &" ++ "\n"
      ++ String.mk (List.replicate 3 ' ') ++ "^") :=
  ⟨(C5_error_message_shapes "a $ b").1 ⟨2, "$"⟩ rfl,
   (C5_error_message_shapes "a &").2.1
     [⟨.ID, "a", 0⟩, ⟨.OP, "&", 2⟩, ⟨.EOF, "", 3⟩]
     "primary expression" "" 3 rfl rfl⟩

/-- C6: a successful tokenization always ends with the `EOF` token
positioned at the input's length, contains exactly one `EOF` token, and
the empty input tokenizes to exactly the sentinel. -/
theorem C6_eof_sentinel (l : List Char) (ts : List Token)
    (h : tokenizeChars l = .ok ts) :
    ts.getLast? = some ⟨.EOF, "", l.length⟩ ∧
    ts.countP (fun t => t.type == .EOF) = 1 ∧
    (l = [] → ts = [⟨.EOF, "", 0⟩]) := by
  obtain ⟨body, rfl, hbody⟩ := tokenizeChars_ok l ts h
  refine ⟨List.getLast?_concat _, ?_, ?_⟩
  · rw [List.countP_append]
    have h0 : body.countP (fun t => t.type == .EOF) = 0 :=
      List.countP_eq_zero.mpr (fun t ht => by simpa using hbody t ht)
    rw [h0]
    rfl
  · rintro rfl
    have h2 : tokenizeChars ([] : List Char) = .ok [(⟨.EOF, "", 0⟩ : Token)] := rfl
    rw [h2] at h
    simp only [Except.ok.injEq] at h
    have hb : body = [] := by
      have hlen := congrArg List.length h
      simp at hlen
      exact hlen
    rw [hb]
    rfl

/-- C6 witness: the tokenization of `"a"`. -/
theorem C6_eof_sentinel_witness :
    ([⟨.ID, "a", 0⟩, ⟨.EOF, "", 1⟩] : List Token).getLast? =
      some ⟨.EOF, "", ("a".toList).length⟩ ∧
    ([⟨.ID, "a", 0⟩, ⟨.EOF, "", 1⟩] : List Token).countP
      (fun t => t.type == .EOF) = 1 ∧
    ("a".toList = [] →
      ([⟨.ID, "a", 0⟩, ⟨.EOF, "", 1⟩] : List Token) = [⟨.EOF, "", 0⟩]) :=
  C6_eof_sentinel "a".toList [⟨.ID, "a", 0⟩, ⟨.EOF, "", 1⟩] rfl

/-- C7: an identifier whose next token is `(` parses as an application
even across whitespace, and empty argument and formal-parameter lists are
accepted. -/
theorem C7_application_lookahead_and_empty_lists :
    parseText "f(a, b)" = .ok [.expr (.app "f" [.id "a", .id "b"])] ∧
    parseText "f (a)" = .ok [.expr (.app "f" [.id "a"])] ∧
    parseText "f()" = .ok [.expr (.app "f" [])] ∧
    parseText "fn g() true" = .ok [.defn "g" [] (.boolLit "true")] :=
  ⟨rfl, rfl, rfl, rfl⟩

/-- C8: lexing `"a $ b"` fails with a lexical error at position 2, the
position of `$`, whose message names that position and character; in
general every lexical error points at a character of the input that no
token category matches, and an erroring tokenization produces no token
sequence at all. -/
theorem C8_illegal_character_error :
    (tokenize "a $ b" = .error ⟨2, "$"⟩ ∧
      lexErrorMessage ⟨2, "$"⟩ = "Unexpected character at position 2: $") ∧
    ∀ (l : List Char) (e : LexErr), tokenizeChars l = .error e →
      ∃ (k : Nat) (c : Char), l[k]? = some c ∧ startsCategory c = false ∧
        e.position = k ∧ e.value = String.mk [c] := by
  refine ⟨⟨rfl, rfl⟩, ?_⟩
  intro l e h
  have hl : lexLoop l.length l 0 = .error e := by
    unfold tokenizeChars at h
    split at h
    · rename_i e2 heq
      simp only [Except.error.injEq] at h
      rw [heq, h]
    · simp at h
  obtain ⟨k, c, hget, hcat, hpos, hval⟩ := lexLoop_error l.length l 0 e le_rfl hl
  exact ⟨k, c, hget, hcat, by simpa using hpos, hval⟩

/-- C8 witness: instantiating the general statement at `"a $ b"`. -/
theorem C8_illegal_character_error_witness :
    ∃ (k : Nat) (c : Char), ("a $ b".toList)[k]? = some c ∧
      startsCategory c = false ∧ (⟨2, "$"⟩ : LexErr).position = k ∧
      (⟨2, "$"⟩ : LexErr).value = String.mk [c] :=
  C8_illegal_character_error.2 "a $ b".toList ⟨2, "$"⟩ rfl

/-- C9: parsing `"a &"` fails with a syntax error whose position is the
`EOF` token's position, the length of the input, carrying the expected
description and the actual token's (empty) value. -/
theorem C9_missing_operand_error_at_eof :
    parseText "a &" = .error (.inr (.syntaxError "primary expression" "" 3)) ∧
    runPipeline "a &" =
      .err "error: expecting 'primary expression' but got ''\na &\n   ^" ∧
    "a &".length = 3 :=
  ⟨rfl, rfl, rfl⟩

/-- C10: after any successful tokenization the parser never dereferences
a missing token, for any fuel, because the `EOF` sentinel is never
consumed; consequently the pipeline as a whole can never reach the crash
outcome. -/
theorem C10_parser_never_reads_past_eof :
    (∀ (l : List Char) (ts : List Token) (fuel : Nat),
      tokenizeChars l = .ok ts → parse_program fuel ts ≠ .error .crash) ∧
    ∀ text : String, runPipeline text ≠ .crash := by
  constructor
  · intro l ts fuel h
    exact parse_program_safe fuel ts (tokenizeChars_hasEOF l ts h)
  · intro text hc
    unfold runPipeline at hc
    split at hc
    · simp at hc
    · rename_i ts heq
      split at hc
      · simp at hc
      · simp at hc
      · rename_i heq2
        exact absurd heq2
          (parse_program_safe _ _ (tokenizeChars_hasEOF text.toList _ heq))
      · simp at hc

/-- C10 witness: instantiating the no-crash statement at the tokens of
`"a"` with fuel 5. -/
theorem C10_parser_never_reads_past_eof_witness :
    parse_program 5 [⟨.ID, "a", 0⟩, ⟨.EOF, "", 1⟩] ≠ .error .crash :=
  C10_parser_never_reads_past_eof.1 "a".toList [⟨.ID, "a", 0⟩, ⟨.EOF, "", 1⟩] 5 rfl

end ParserLexer
